import Mathlib

/-!
Verification of the Intel CSME firmware unpacker (`decoder/csme_unpack.py`,
`decoder/fpt_and_cdt_utilities.py`).

This file gives a shallow embedding of the parts of the program that the
claims are about:

* the page lookup-table reader `read_lut`,
* the Huffman code table loader `process_huffman_table_file_line` and the
  `HuffmanTableEntry` constructor,
* the per-page decoder `decode_page_from_input_file_i`,
* `read_lut_of_code_object`.

Modelling conventions:

* A binary file is a `List Nat` of byte values together with a cursor
  position; `fileRead` mirrors `BufferedReader.read` (a non-negative count
  reads up to that many bytes, `-1` reads to EOF, any other negative count
  raises, modelled as `none`).
* Python exceptions are modelled with `Option`/`Except`.
* Python `int` is modelled as `Int` where negative values are reachable
  (LUT entry sizes, table-file fields) and as `Nat` where the program only
  ever produces non-negative values (file offsets, bit counts, byte counts).
* The decoder's `while` loops are modelled with an explicit fuel argument;
  running out of fuel yields `none`, so every theorem about a terminating
  run is stated on hypotheses of the form `... = some r`.
* Object mutation (the LUT entry passed to the decoder) is modelled by
  returning the final value of the object.
-/

/-! ## LUT entries (`class LUTentry`) -/

/-- One entry of the page lookup table, mirroring `class LUTentry`:
`offset` and `dictionary_selector` are set by the constructor and `size`
starts at `0`; `size` is patched retroactively by `read_lut` and can be
negative for unordered inputs, hence `Int`. -/
structure LUTentry where
  offset : Nat
  dictionary_selector : Nat
  size : Int
deriving DecidableEq, Repr

/-! ## The LUT reader (`read_lut`) -/

/-- The offset assembled from one 4-byte LUT word, exactly as on lines
264-267 of `csme_unpack.py`:
`(((r[3 if rev else 0] & 0x3F) & 0xFF) << 24) | ((r[2 if rev else 1] & 0xFF) << 16)
 | ((r[1 if rev else 2] & 0xFF) << 8) | (r[0 if rev else 3] & 0xFF)`. -/
def lutOffset (r0 r1 r2 r3 : Nat) (rev : Bool) : Nat :=
  if rev then
    ((((r3 &&& 0x3F) &&& 0xFF) <<< 24) ||| ((r2 &&& 0xFF) <<< 16)
      ||| ((r1 &&& 0xFF) <<< 8) ||| (r0 &&& 0xFF))
  else
    ((((r0 &&& 0x3F) &&& 0xFF) <<< 24) ||| ((r1 &&& 0xFF) <<< 16)
      ||| ((r2 &&& 0xFF) <<< 8) ||| (r3 &&& 0xFF))

/-- `local_lut_return_value[entry_index - 1].size = new.offset - prev.offset`
(lines 270-272): patch the size of the last accumulated entry; no-op for an
empty accumulator (`entry_index == 0`). -/
def patchLast : List LUTentry → Nat → List LUTentry
  | [], _ => []
  | [a], off => [{ a with size := (off : Int) - (a.offset : Int) }]
  | a :: b :: rest, off => a :: patchLast (b :: rest) off

/-- Append a freshly constructed `LUTentry(offset, huffman_selector)` after
patching the previous entry's size (lines 269-274). -/
def pushEntry (acc : List LUTentry) (off sel : Nat) : List LUTentry :=
  patchLast acc off ++ [⟨off, sel, 0⟩]

/-- The `while position < bytes_of_lut_to_read` loop of `read_lut`
(lines 254-274), with one fuel unit per iteration (`position` advances by
exactly 4 each time round, so the iteration count is fixed up front).
Reading `rawdata = f.read(4)` is modelled by `stream.take 4`; an index into
`rawdata` beyond the bytes actually present (a Python `IndexError` on a
short read) makes the whole run `none`. -/
def readLutAux (rev : Bool) : Nat → List Nat → List LUTentry → Option (List LUTentry)
  | 0, _, acc => some acc
  | k + 1, stream, acc =>
    let chunk := stream.take 4
    match chunk.get? (if rev then 3 else 0) with
    | none => none
    | some sb =>
      let hs := sb &&& 0xC0
      if hs ≠ 0xC0 ∧ hs ≠ 0x40 then
        readLutAux rev k (stream.drop 4) acc
      else
        match chunk.get? 0, chunk.get? 1, chunk.get? 2, chunk.get? 3 with
        | some r0, some r1, some r2, some r3 =>
          readLutAux rev k (stream.drop 4)
            (pushEntry acc (lutOffset r0 r1 r2 r3 rev) (if hs = 0xC0 then 1 else 0))
        | _, _, _, _ => none

/-- `read_lut(from_opened_input_file, bytes_of_lut_to_read, reverse_byte_ordering)`
on a file whose remaining contents are `stream`.  The loop runs
`⌈bytes_of_lut_to_read / 4⌉` times since `position` starts at `0` and is
incremented by 4 on every iteration. -/
def readLut (stream : List Nat) (bytesOfLutToRead : Nat) (rev : Bool) : Option (List LUTentry) :=
  readLutAux rev ((bytesOfLutToRead + 3) / 4) stream []

/-- Companion to `readLut` that records only the assembled offsets of the
accepted words, in input order (used to phrase the LUT monotonicity claim
as a property of the input bytes). -/
def lutOffsetsAux (rev : Bool) : Nat → List Nat → List Nat → Option (List Nat)
  | 0, _, acc => some acc
  | k + 1, stream, acc =>
    let chunk := stream.take 4
    match chunk.get? (if rev then 3 else 0) with
    | none => none
    | some sb =>
      let hs := sb &&& 0xC0
      if hs ≠ 0xC0 ∧ hs ≠ 0x40 then
        lutOffsetsAux rev k (stream.drop 4) acc
      else
        match chunk.get? 0, chunk.get? 1, chunk.get? 2, chunk.get? 3 with
        | some r0, some r1, some r2, some r3 =>
          lutOffsetsAux rev k (stream.drop 4) (acc ++ [lutOffset r0 r1 r2 r3 rev])
        | _, _, _, _ => none

/-- The decoded offsets of the accepted LUT words of a `readLut` run. -/
def lutAcceptedOffsets (stream : List Nat) (bytesOfLutToRead : Nat) (rev : Bool) :
    Option (List Nat) :=
  lutOffsetsAux rev ((bytesOfLutToRead + 3) / 4) stream []

/-! ## Helper lemmas about bytes and `pushEntry` -/

set_option maxRecDepth 4000

/-- For a byte value, testing `& 0xC0` against `0xC0`/`0x40` is testing the
top two bits against `0b11`/`0b01`. -/
theorem byte_topbits : ∀ b < 256,
    ((b &&& 192 = 192) ↔ b >>> 6 = 3) ∧ ((b &&& 192 = 64) ↔ b >>> 6 = 1) := by
  decide

theorem and_255_of_lt {x : Nat} (h : x < 256) : x &&& 255 = x := by
  have h2 := Nat.and_pow_two_sub_one_eq_mod x 8
  norm_num at h2
  rw [h2]
  omega

theorem and_63_and_255 (x : Nat) : (x &&& 63) &&& 255 = x &&& 63 :=
  and_255_of_lt (lt_of_le_of_lt (Nat.and_le_right) (by norm_num))

theorem lutOffset_eq {r0 r1 r2 r3 : Nat} (rev : Bool)
    (h0 : r0 < 256) (h1 : r1 < 256) (h2 : r2 < 256) (h3 : r3 < 256) :
    lutOffset r0 r1 r2 r3 rev =
      if rev then ((r3 &&& 63) <<< 24) ||| (r2 <<< 16) ||| (r1 <<< 8) ||| r0
      else ((r0 &&& 63) <<< 24) ||| (r1 <<< 16) ||| (r2 <<< 8) ||| r3 := by
  unfold lutOffset
  cases rev <;>
    simp [and_63_and_255, and_255_of_lt h0, and_255_of_lt h1, and_255_of_lt h2,
      and_255_of_lt h3]

theorem patchLast_map_offset (acc : List LUTentry) (off : Nat) :
    (patchLast acc off).map LUTentry.offset = acc.map LUTentry.offset := by
  induction acc with
  | nil => rfl
  | cons a rest ih =>
    cases rest with
    | nil => rfl
    | cons b rest2 =>
      simpa [patchLast] using ih

theorem pushEntry_map_offset (acc : List LUTentry) (off sel : Nat) :
    (pushEntry acc off sel).map LUTentry.offset = acc.map LUTentry.offset ++ [off] := by
  simp [pushEntry, patchLast_map_offset]

theorem pushEntry_getLast (acc : List LUTentry) (off sel : Nat) :
    (pushEntry acc off sel).getLast? = some ⟨off, sel, 0⟩ :=
  List.getLast?_concat _

/-- The size-patching relation between two consecutive LUT entries. -/
def sizeLinked (a b : LUTentry) : Prop := a.size = (b.offset : Int) - (a.offset : Int)

theorem pushEntry_chain {acc : List LUTentry} (off sel : Nat)
    (h : List.Chain' sizeLinked acc) : List.Chain' sizeLinked (pushEntry acc off sel) := by
  induction acc with
  | nil => simp [pushEntry, patchLast]
  | cons a rest ih =>
    cases rest with
    | nil =>
      simp [pushEntry, patchLast, sizeLinked]
    | cons b rest2 =>
      rw [List.chain'_cons'] at h
      have hpush : pushEntry (a :: b :: rest2) off sel = a :: pushEntry (b :: rest2) off sel := by
        simp [pushEntry, patchLast]
      rw [hpush, List.chain'_cons']
      refine ⟨?_, ih h.2⟩
      intro y hy
      have hoff : (pushEntry (b :: rest2) off sel).map LUTentry.offset
          = b.offset :: (rest2.map LUTentry.offset ++ [off]) := by
        simp [pushEntry_map_offset]
      have hyoff : y.offset = b.offset := by
        have := congrArg List.head? hoff
        rw [List.head?_map, hy] at this
        simpa using this
      have hab := h.1 b (by simp)
      simpa [sizeLinked, hyoff] using hab

theorem readLutAux_sizes (rev : Bool) :
    ∀ (k : Nat) (stream : List Nat) (acc l : List LUTentry),
      List.Chain' sizeLinked acc → (∀ e ∈ acc.getLast?, e.size = 0) →
      readLutAux rev k stream acc = some l →
      List.Chain' sizeLinked l ∧ ∀ e ∈ l.getLast?, e.size = 0 := by
  intro k
  induction k with
  | zero =>
    intro stream acc l hc hz h
    simp only [readLutAux, Option.some.injEq] at h
    exact h ▸ ⟨hc, hz⟩
  | succ k ih =>
    intro stream acc l hc hz h
    simp only [readLutAux] at h
    split at h
    · exact absurd h (by simp)
    · split at h
      · exact ih _ _ _ hc hz h
      · split at h
        · refine ih _ _ _ (pushEntry_chain _ _ hc) ?_ h
          intro e he
          rw [pushEntry_getLast] at he
          simp only [Option.mem_def, Option.some.injEq] at he
          subst he
          rfl
        · exact absurd h (by simp)

/-- C6: every entry of a `read_lut` result except the last carries
`size = next.offset − this.offset`, and the final entry keeps the sentinel
`size = 0`. -/
theorem readLut_size_patching (stream : List Nat) (n : Nat) (rev : Bool)
    (l : List LUTentry) (h : readLut stream n rev = some l) :
    List.Chain' sizeLinked l ∧ ∀ e ∈ l.getLast?, e.size = 0 :=
  readLutAux_sizes rev _ stream [] l (by simp) (by simp) h

/-- Witness for `readLut_size_patching` at a concrete two-word LUT. -/
theorem readLut_size_patching_witness :
    List.Chain' sizeLinked [⟨1, 0, 1⟩, (⟨2, 1, 0⟩ : LUTentry)] ∧
      ∀ e ∈ (some (⟨2, 1, 0⟩ : LUTentry)), e.size = 0 := by
  have h := readLut_size_patching [0x40, 0, 0, 1, 0xC0, 0, 0, 2] 8 false
      [⟨1, 0, 1⟩, ⟨2, 1, 0⟩] rfl
  exact ⟨h.1, h.2⟩

theorem lutOffsetsAux_spec (rev : Bool) :
    ∀ (k : Nat) (stream : List Nat) (acc : List LUTentry),
      lutOffsetsAux rev k stream (acc.map LUTentry.offset)
        = (readLutAux rev k stream acc).map (List.map LUTentry.offset) := by
  intro k
  induction k with
  | zero => intro stream acc; rfl
  | succ k ih =>
    intro stream acc
    simp only [lutOffsetsAux, readLutAux]
    split
    · rfl
    · split
      · exact ih _ _
      · split
        · rw [← pushEntry_map_offset]
          exact ih _ _
        · rfl

/-- The offsets of the entries returned by `read_lut` are exactly the
offsets decoded from the accepted input words, in input order. -/
theorem readLut_offsets (stream : List Nat) (n : Nat) (rev : Bool)
    (l : List LUTentry) (h : readLut stream n rev = some l) :
    lutAcceptedOffsets stream n rev = some (l.map LUTentry.offset) := by
  have := lutOffsetsAux_spec rev ((n + 3) / 4) stream []
  simp only [List.map_nil] at this
  rw [lutAcceptedOffsets, this, readLut] at *
  rw [h]
  rfl

/-- C5 (amended): `read_lut` itself performs no ordering check; it returns
the accepted words' entries in input order, so consecutive entries satisfy
`next.offset > this.offset` exactly when the offsets decoded from the
accepted input words are strictly increasing. -/
theorem readLut_monotone_of_input_monotone (stream : List Nat) (n : Nat)
    (rev : Bool) (l : List LUTentry) (os : List Nat)
    (h : readLut stream n rev = some l)
    (hos : lutAcceptedOffsets stream n rev = some os)
    (hmono : List.Chain' (· < ·) os) :
    List.Chain' (fun a b : LUTentry => a.offset < b.offset) l := by
  have heq : os = l.map LUTentry.offset := by
    have h2 := readLut_offsets stream n rev l h
    rw [hos] at h2
    exact Option.some.injEq _ _ ▸ h2.symm ▸ rfl
  subst heq
  exact (List.chain'_map LUTentry.offset).mp hmono

/-- Witness for `readLut_monotone_of_input_monotone` at a concrete
ascending two-word LUT. -/
theorem readLut_monotone_witness :
    List.Chain' (fun a b : LUTentry => a.offset < b.offset)
      [⟨1, 0, 1⟩, (⟨2, 1, 0⟩ : LUTentry)] :=
  readLut_monotone_of_input_monotone [0x40, 0, 0, 1, 0xC0, 0, 0, 2] 8 false
    [⟨1, 0, 1⟩, ⟨2, 1, 0⟩] [1, 2] rfl rfl
    (List.chain'_cons.mpr ⟨by norm_num, List.chain'_singleton _⟩)

/-- C5 (counterexample): on input words whose decoded offsets descend,
`read_lut` returns entries that are not in ascending offset order (and the
patched size of the first entry is negative). -/
theorem readLut_monotone_counterexample :
    readLut [0x40, 0, 0, 10, 0x40, 0, 0, 5] 8 false
        = some [⟨10, 0, -5⟩, ⟨5, 0, 0⟩] ∧
      ¬ List.Chain' (fun a b : LUTentry => a.offset < b.offset)
          [⟨10, 0, -5⟩, (⟨5, 0, 0⟩ : LUTentry)] := by
  refine ⟨rfl, ?_⟩
  intro h
  have h1 := (List.chain'_cons.mp h).1
  simp only [] at h1
  omega

/-- C4: processing of a single 4-byte LUT word `r0 r1 r2 r3` by the
`read_lut` loop.  If the top two bits of the selector byte (`r3` when
`reverse_byte_ordering`, else `r0`) are `0b11` an entry with
`dictionary_selector = 1` is appended; if they are `0b01`, an entry with
`dictionary_selector = 0`; for any other value the word is skipped and the
loop continues at the next 4-byte boundary.  Accepted words contribute the
offset `((r0 & 0x3F) << 24) | (r1 << 16) | (r2 << 8) | r3` (non-reversed)
or `((r3 & 0x3F) << 24) | (r2 << 16) | (r1 << 8) | r0` (reversed). -/
theorem readLut_word_rules (r0 r1 r2 r3 : Nat) (rest : List Nat) (rev : Bool)
    (acc : List LUTentry) (k : Nat)
    (h0 : r0 < 256) (h1 : r1 < 256) (h2 : r2 < 256) (h3 : r3 < 256) :
    (let sb := if rev then r3 else r0
     let off := if rev then ((r3 &&& 63) <<< 24) ||| (r2 <<< 16) ||| (r1 <<< 8) ||| r0
                else ((r0 &&& 63) <<< 24) ||| (r1 <<< 16) ||| (r2 <<< 8) ||| r3
     (sb >>> 6 = 3 →
       readLutAux rev (k + 1) (r0 :: r1 :: r2 :: r3 :: rest) acc
         = readLutAux rev k rest (pushEntry acc off 1)) ∧
     (sb >>> 6 = 1 →
       readLutAux rev (k + 1) (r0 :: r1 :: r2 :: r3 :: rest) acc
         = readLutAux rev k rest (pushEntry acc off 0)) ∧
     (sb >>> 6 ≠ 3 → sb >>> 6 ≠ 1 →
       readLutAux rev (k + 1) (r0 :: r1 :: r2 :: r3 :: rest) acc
         = readLutAux rev k rest acc)) := by
  have hsb : (if rev then r3 else r0) < 256 := by cases rev <;> simpa
  have htop := byte_topbits _ hsb
  refine ⟨?_, ?_, ?_⟩
  · intro htb
    have hand : (if rev then r3 else r0) &&& 192 = 192 := htop.1.mpr htb
    simp only [readLutAux, List.take_cons, List.drop_succ_cons, List.drop_zero]
    cases rev <;>
      simp_all [lutOffset_eq, List.get?, readLutAux]
  · intro htb
    have hand : (if rev then r3 else r0) &&& 192 = 64 := htop.2.mpr htb
    cases rev <;>
      simp_all [lutOffset_eq, List.get?, readLutAux]
  · intro ht3 ht1
    have hand3 : ¬((if rev then r3 else r0) &&& 192 = 192) := fun hc => ht3 (htop.1.mp hc)
    have hand1 : ¬((if rev then r3 else r0) &&& 192 = 64) := fun hc => ht1 (htop.2.mp hc)
    cases rev <;>
      simp_all [List.get?, readLutAux]

/-- Witness for `readLut_word_rules` at a concrete accepted word. -/
theorem readLut_word_rules_witness :
    readLutAux false 1 [0xC0, 1, 2, 3] []
      = readLutAux false 0 []
          (pushEntry [] (((0xC0 &&& 63) <<< 24) ||| (1 <<< 16) ||| (2 <<< 8) ||| 3) 1) := by
  have h := readLut_word_rules 0xC0 1 2 3 [] false [] 0
    (by norm_num) (by norm_num) (by norm_num) (by norm_num)
  exact h.1 (by decide)

/-! ## Huffman table entries (`class HuffmanTableEntry`) and the table
loader (`process_huffman_table_file_line`) -/

/-- A row of the parsed Huffman table, mirroring `class HuffmanTableEntry`.
`dict1_value`/`dict2_value` are the byte arrays produced by
`int.to_bytes(dict_data_length_in_bytes, "big")`; `huffman_code` is the raw
token string; `huffman_code_bits` models the `bitstring.ConstBitArray`
built from `"0b" + huffman_code`.  `dictionary_data_length` and
`huffman_code_rank` store the parsed `Length`/`Depth` columns as given
(Python ints, hence `Int`). -/
structure HuffmanTableEntry where
  dict1_value : List Nat
  dict2_value : List Nat
  dictionary_data_length : Int
  huffman_code_rank : Int
  huffman_code : String
  huffman_code_bits : List Bool
deriving DecidableEq, Repr

/-- Big-endian byte expansion of a natural number into exactly `len`
bytes. -/
def natToBytesBE (v len : Nat) : List Nat :=
  (List.range len).map fun i => v / 256 ^ (len - 1 - i) % 256

/-- `int.to_bytes(len, "big")`: `none` models the `OverflowError` raised
when the value is negative or does not fit in `len` bytes, and the
`ValueError` raised for a negative length. -/
def intToBytesBE (v len : Int) : Option (List Nat) :=
  if len < 0 then none
  else if v < 0 then none
  else if (256 : Int) ^ len.toNat ≤ v then none
  else some (natToBytesBE v.toNat len.toNat)

/-- Characters `str.split()` treats as separators.  (Python also splits on
some exotic Unicode spaces; ASCII whitespace plus vertical tab and form
feed covers the table files.) -/
def pyIsSpace (c : Char) : Bool :=
  c.isWhitespace || c = '\x0B' || c = '\x0C'

/-- Split a character list at every separator (keeping empty pieces). -/
def splitCharsAux (p : Char → Bool) : List Char → List Char → List (List Char)
  | [], cur => [cur.reverse]
  | c :: rest, cur =>
    if p c then cur.reverse :: splitCharsAux p rest []
    else splitCharsAux p rest (c :: cur)

/-! ### The `bitstring` string initialiser

`HuffmanTableEntry.__init__` builds its key with
`bitstring.ConstBitArray("0b" + str(huffman_code))`.  bitstring's string
initialiser is a token grammar, not a plain bit string: the string is
split on commas into tokens (whitespace is removed from each token and
empty tokens are skipped), every token contributes bits, and the results
are concatenated.  The tokens reachable here are the literal forms
`0b…`/`0x…`/`0o…` (case-insensitive prefix, non-empty value); their
setters (`_setbin_safe` and friends) lowercase the value, delete every
remaining occurrence of the (lowercased) prefix — Python's
`str.replace(prefix, "")`, left to right without rescanning — and convert
it digit-wise at 1/4/3 bits per character, raising `CreationError` on any
other character.  Tokens using the rest of the grammar (named tokens such
as `uint:8=5`, multiplicative factors, bracketed groups) are treated as
initialisation errors here. -/

/-- `tidy_input_string` (bitstring): remove whitespace, lowercase. -/
def tidyInputChars (cs : List Char) : List Char :=
  (cs.filter fun c => !(pyIsSpace c)).map Char.toLower

/-- Python `s.replace(ab, "")` for a two-character pattern `ab`: remove
non-overlapping occurrences left to right, without rescanning the text
joined by a removal. -/
def removePairAll (a b : Char) : List Char → List Char
  | [] => []
  | [c] => [c]
  | c :: d :: rest =>
    if c = a ∧ d = b then removePairAll a b rest
    else c :: removePairAll a b (d :: rest)

/-- A 4-bit nibble, msb first. -/
def nibbleBits (v : Nat) : List Bool :=
  [v.testBit 3, v.testBit 2, v.testBit 1, v.testBit 0]

def binCharBits (c : Char) : Option (List Bool) :=
  if c = '0' then some [false] else if c = '1' then some [true] else none

def hexCharBits (c : Char) : Option (List Bool) :=
  if '0' ≤ c ∧ c ≤ '9' then some (nibbleBits (c.toNat - '0'.toNat))
  else if 'a' ≤ c ∧ c ≤ 'f' then some (nibbleBits (c.toNat - 'a'.toNat + 10))
  else none

def octCharBits (c : Char) : Option (List Bool) :=
  if '0' ≤ c ∧ c ≤ '7' then
    some [(c.toNat - '0'.toNat).testBit 2, (c.toNat - '0'.toNat).testBit 1,
      (c.toNat - '0'.toNat).testBit 0]
  else none

/-- Convert a value digit-wise, concatenating each character's bits. -/
def charsBits (f : Char → Option (List Bool)) : List Char → Option (List Bool)
  | [] => some []
  | c :: rest => do
    let b ← f c
    let bs ← charsBits f rest
    pure (b ++ bs)

/-- One comma-separated token: the literal `0b`/`0x`/`0o` forms (see the
section comment); anything else raises (`none`). -/
def litTokenBits : List Char → Option (List Bool)
  | '0' :: x :: v0 :: rest =>
    let value := tidyInputChars (v0 :: rest)
    if x = 'b' ∨ x = 'B' then charsBits binCharBits (removePairAll '0' 'b' value)
    else if x = 'x' ∨ x = 'X' then charsBits hexCharBits (removePairAll '0' 'x' value)
    else if x = 'o' ∨ x = 'O' then charsBits octCharBits (removePairAll '0' 'o' value)
    else none
  | _ => none

/-- `bitstring.ConstBitArray(s)` for the strings built by the loader
(`"0b" + token`): split on commas, drop whitespace from each piece, skip
empty pieces, parse each piece as a token and concatenate the bits;
`none` models a `CreationError`.  The bit count therefore need not equal
the character count (e.g. the token `1,0b1` yields two bits). -/
def strToBits (s : String) : Option (List Bool) := do
  let pieces := splitCharsAux (fun c => c = ',') s.data []
  let bitLists ← pieces.mapM fun p =>
    let p' := p.filter fun c => !(pyIsSpace c)
    if p' = [] then some [] else litTokenBits p'
  pure bitLists.flatten

/-- The `HuffmanTableEntry.__init__` constructor: `none` models an
exception escaping from it.  The key is built from `"0b" + huffman_code`
exactly as on line 125 of `csme_unpack.py`. -/
def mkHuffmanTableEntry (dict1 dict2 dictDataLengthInBytes rank : Int)
    (huffmanCode : String) : Option HuffmanTableEntry := do
  let d1 ← intToBytesBE dict1 dictDataLengthInBytes
  let d2 ← intToBytesBE dict2 dictDataLengthInBytes
  let bits ← strToBits ("0b" ++ huffmanCode)
  pure ⟨d1, d2, dictDataLengthInBytes, rank, huffmanCode, bits⟩

example : strToBits "0b0000000" = some (List.replicate 7 false) := rfl

example : strToBits "0b1,0b1" = some [true, true] := rfl

example : strToBits "0b1010b11" = some [true, false, true, true, true] := rfl

example : strToBits "0b1,0x1f" =
    some [true, false, false, false, true, true, true, true, true] := rfl

example : strToBits "0bxyz" = none := rfl

/-! ### Python `int(token, base)` (the subset reachable from table tokens)

Tokens produced by `str.split()` contain no whitespace, so the grammar is:
optional sign, then (for base 16) an optional `0x`/`0X` prefix which may be
followed by one underscore, then a non-empty digit sequence in which single
underscores may separate digits. -/

def hexDigitVal (c : Char) : Option Nat :=
  if '0' ≤ c ∧ c ≤ '9' then some (c.toNat - '0'.toNat)
  else if 'a' ≤ c ∧ c ≤ 'f' then some (c.toNat - 'a'.toNat + 10)
  else if 'A' ≤ c ∧ c ≤ 'F' then some (c.toNat - 'A'.toNat + 10)
  else none

def decDigitVal (c : Char) : Option Nat :=
  if '0' ≤ c ∧ c ≤ '9' then some (c.toNat - '0'.toNat) else none

/-- Digits with optional single underscores between digits (no leading,
trailing or doubled underscore); accumulates the value. -/
def digitsGo (dval : Char → Option Nat) (base : Nat) : List Char → Nat → Option Nat
  | [], acc => some acc
  | '_' :: rest, acc =>
    match rest with
    | [] => none
    | c :: _ =>
      match dval c with
      | some _ => digitsGo dval base rest acc
      | none => none
  | c :: rest, acc =>
    match dval c with
    | some d => digitsGo dval base rest (acc * base + d)
    | none => none

/-- A non-empty digit sequence (must start with a digit). -/
def parseDigits (dval : Char → Option Nat) (base : Nat) : List Char → Option Nat
  | [] => none
  | '_' :: _ => none
  | cs => digitsGo dval base cs 0

/-- `int(token, 16)`. -/
def pyIntHex (s : String) : Option Int := do
  let (sign, cs) :=
    match s.data with
    | '+' :: r => ((1 : Int), r)
    | '-' :: r => ((-1 : Int), r)
    | r => ((1 : Int), r)
  let cs2 :=
    match cs with
    | '0' :: x :: r =>
      if x = 'x' ∨ x = 'X' then
        match r with
        | '_' :: r2 => r2
        | _ => r
      else cs
    | _ => cs
  let v ← parseDigits hexDigitVal 16 cs2
  pure (sign * v)

/-- `int(token, 10)`. -/
def pyIntDec (s : String) : Option Int := do
  let (sign, cs) :=
    match s.data with
    | '+' :: r => ((1 : Int), r)
    | '-' :: r => ((-1 : Int), r)
    | r => ((1 : Int), r)
  let v ← parseDigits decDigitVal 10 cs
  pure (sign * v)

/-- `line.split()`: split on runs of whitespace, dropping empty pieces. -/
def pySplit (line : String) : List String :=
  ((splitCharsAux pyIsSpace line.data []).map String.mk).filter (· ≠ "")

/-- The fields extracted inside the `try:` block of
`process_huffman_table_file_line` (lines 155-160): `tokens[0]` and
`tokens[2]` as base-16 ints, `tokens[4]` and `tokens[5]` as base-10 ints,
and `tokens[6]` as a raw string.  `none` models any exception caught by the
bare `except:` (IndexError or ValueError). -/
def parseTableLine (line : String) : Option (Int × Int × Int × Int × String) := do
  let ts := pySplit line
  let t0 ← ts.get? 0
  let dict1 ← pyIntHex t0
  let t2 ← ts.get? 2
  let dict2 ← pyIntHex t2
  let t4 ← ts.get? 4
  let dlen ← pyIntDec t4
  let t5 ← ts.get? 5
  let rank ← pyIntDec t5
  let t6 ← ts.get? 6
  pure (dict1, dict2, dlen, rank, t6)

/-- The mutable module state of the loader: the global `huffman_table`
dict (an insertion-ordered map keyed by the code's bits) and the two
min/max counters (`sys.maxsize` initially for the shortest). -/
structure TableState where
  table : List (List Bool × HuffmanTableEntry)
  longest_huffman_code_in_bits : Int
  shortest_huffman_code_in_bits : Int
deriving DecidableEq, Repr

/-- `clear_huffman_table_data()` / the initial module state. -/
def clearTableState : TableState := ⟨[], 0, 2 ^ 63 - 1⟩

/-- The two `if` statements updating the global min/max counters
(lines 161-164). -/
def bumpMinMax (st : TableState) (rank : Int) : TableState :=
  let st1 := if rank > st.longest_huffman_code_in_bits
    then { st with longest_huffman_code_in_bits := rank } else st
  if rank < st1.shortest_huffman_code_in_bits
    then { st1 with shortest_huffman_code_in_bits := rank } else st1

/-- `huffman_table[key] = entry`: overwrite in place if the key exists
(Python dicts keep the original position), else append. -/
def insertEntry (tbl : List (List Bool × HuffmanTableEntry)) (key : List Bool)
    (e : HuffmanTableEntry) : List (List Bool × HuffmanTableEntry) :=
  if (tbl.lookup key).isSome then
    tbl.map fun kv => if kv.1 = key then (key, e) else kv
  else tbl ++ [(key, e)]

/-- `process_huffman_table_file_line(line)`, as a state transformer.
`Except.error st` models an exception escaping the function with the
module state left as `st` (the min/max counters are updated inside the
`try:` block *before* the entry constructor runs outside of it, so an
exception from the constructor leaves them already bumped). -/
def processHuffmanTableFileLine (line : String) (st : TableState) :
    Except TableState TableState :=
  match parseTableLine line with
  | none => .ok st
  | some (dict1, dict2, dlen, rank, code) =>
    let st1 := bumpMinMax st rank
    match mkHuffmanTableEntry dict1 dict2 dlen rank code with
    | none => .error st1
    | some e => .ok { st1 with table := insertEntry st1.table e.huffman_code_bits e }

/-! ## Claims about the table loader (C7, C8) -/

theorem natToBytesBE_length (v len : Nat) : (natToBytesBE v len).length = len := by
  simp [natToBytesBE]

theorem intToBytesBE_length {v len : Int} {bs : List Nat}
    (h : intToBytesBE v len = some bs) : (bs.length : Int) = len := by
  unfold intToBytesBE at h
  split at h
  · exact absurd h (by simp)
  · split at h
    · exact absurd h (by simp)
    · split at h
      · exact absurd h (by simp)
      · simp only [Option.some.injEq] at h
        subst h
        rw [natToBytesBE_length]
        omega

theorem insertEntry_mem {tbl : List (List Bool × HuffmanTableEntry)}
    {key : List Bool} {e : HuffmanTableEntry} {kv : List Bool × HuffmanTableEntry}
    (h : kv ∈ insertEntry tbl key e) : kv ∈ tbl ∨ kv = (key, e) := by
  unfold insertEntry at h
  split at h
  · obtain ⟨kv', hkv', heq⟩ := List.mem_map.mp h
    by_cases hk : kv'.1 = key
    · simp only [hk, if_pos] at heq
      exact Or.inr heq.symm
    · simp only [hk, if_neg, not_false_iff] at heq
      exact Or.inl (heq ▸ hkv')
  · rcases List.mem_append.mp h with h1 | h1
    · exact Or.inl h1
    · exact Or.inr (by simpa using h1)

/-- C7 (counterexample): the line `01 0 02 0 1 7 xyz` parses its numeric
fields, so the min/max counters are updated, but the entry constructor
then raises on the non-binary code token — the function neither adds an
entry nor silently skips, and the state is left changed. -/
theorem processLine_raise_counterexample :
    processHuffmanTableFileLine "01 0 02 0 1 7 xyz" clearTableState
        = .error ⟨[], 7, 7⟩ ∧
      (⟨[], 7, 7⟩ : TableState) ≠ clearTableState := by
  exact ⟨rfl, by decide⟩

/-- Case analysis of `process_huffman_table_file_line` shared by the
table-loader proofs. -/
theorem processLine_spec (line : String) (st : TableState) :
    (parseTableLine line = none ∧ processHuffmanTableFileLine line st = .ok st) ∨
    (∃ dict1 dict2 dlen rank code,
      parseTableLine line = some (dict1, dict2, dlen, rank, code) ∧
      ((mkHuffmanTableEntry dict1 dict2 dlen rank code = none ∧
          processHuffmanTableFileLine line st = .error (bumpMinMax st rank)) ∨
        (∃ e, mkHuffmanTableEntry dict1 dict2 dlen rank code = some e ∧
          processHuffmanTableFileLine line st =
            .ok { bumpMinMax st rank with
                    table := insertEntry (bumpMinMax st rank).table e.huffman_code_bits e }))) := by
  cases hp : parseTableLine line with
  | none =>
    exact Or.inl ⟨rfl, by simp [processHuffmanTableFileLine, hp]⟩
  | some q =>
    obtain ⟨d1, d2, dlen, rank, code⟩ := q
    refine Or.inr ⟨d1, d2, dlen, rank, code, rfl, ?_⟩
    cases hm : mkHuffmanTableEntry d1 d2 dlen rank code with
    | none =>
      exact Or.inl ⟨rfl, by simp [processHuffmanTableFileLine, hp, hm]⟩
    | some e =>
      exact Or.inr ⟨e, rfl, by simp [processHuffmanTableFileLine, hp, hm]⟩

/-- C7 (amended): for every input line, exactly one of three things
happens.  If the seven fields fail to parse, the line is silently skipped
and the state (table and counters) is unchanged.  If they parse, the
min/max counters are updated first; then either the entry constructor
succeeds and exactly one entry is added/overwritten, or the constructor
raises (non-binary code token, dictionary value not fitting the declared
length, or negative length) and the exception escapes with the counters
already bumped and the table unchanged. -/
theorem processLine_cases (line : String) (st : TableState) :
    (parseTableLine line = none ∧ processHuffmanTableFileLine line st = .ok st) ∨
    (∃ dict1 dict2 dlen rank code,
      parseTableLine line = some (dict1, dict2, dlen, rank, code) ∧
      ((mkHuffmanTableEntry dict1 dict2 dlen rank code = none ∧
          processHuffmanTableFileLine line st = .error (bumpMinMax st rank)) ∨
        (∃ e, mkHuffmanTableEntry dict1 dict2 dlen rank code = some e ∧
          processHuffmanTableFileLine line st =
            .ok { bumpMinMax st rank with
                    table := insertEntry (bumpMinMax st rank).table e.huffman_code_bits e }))) :=
  processLine_spec line st

/-- C8 (counterexample): the line `01 0 02 0 1 7 000` is accepted and
stores an entry whose key is 3 bits long while its depth (rank) field is
7 — the loader never checks the code token's length against the depth
column. -/
theorem tableEntry_depth_counterexample :
    processHuffmanTableFileLine "01 0 02 0 1 7 000" clearTableState
        = .ok ⟨[([false, false, false],
                  ⟨[1], [2], 1, 7, "000", [false, false, false]⟩)], 7, 7⟩ ∧
      ((⟨[1], [2], 1, 7, "000", [false, false, false]⟩ :
          HuffmanTableEntry).huffman_code_bits.length : Int)
        ≠ (⟨[1], [2], 1, 7, "000", [false, false, false]⟩ :
          HuffmanTableEntry).huffman_code_rank :=
  ⟨rfl, by decide⟩

/-- `bumpMinMax` touches only the counters, never the table. -/
theorem bumpMinMax_table (st : TableState) (rank : Int) :
    (bumpMinMax st rank).table = st.table := by
  simp only [bumpMinMax]
  split <;> split <;> rfl

/-- C8 (amended): every entry a successful `process_huffman_table_file_line`
call leaves in the table was either there before the call or is the newly
constructed entry, which satisfies: `dict1` and `dict2` have equal byte
length, that length equals the stored decoded-length field, and the key
under which it is stored is exactly the bit pattern that the `bitstring`
initialiser parses from `"0b" +` its stored code token (whose bit count
need not equal the token's character count); the depth field is recorded
as parsed and is not validated against the key length. -/
theorem tableEntry_wf (line : String) (st st' : TableState)
    (h : processHuffmanTableFileLine line st = .ok st') :
    ∀ kv ∈ st'.table, kv ∈ st.table ∨
      (kv.2.dict1_value.length = kv.2.dict2_value.length ∧
        (kv.2.dict1_value.length : Int) = kv.2.dictionary_data_length ∧
        strToBits ("0b" ++ kv.2.huffman_code) = some kv.2.huffman_code_bits ∧
        kv.1 = kv.2.huffman_code_bits) := by
  intro kv hkv
  rcases processLine_spec line st with ⟨hp, hok⟩ |
    ⟨d1, d2, dlen, rank, code, hp, ⟨hm, herr⟩ | ⟨e, hm, hok⟩⟩
  · rw [hok] at h
    simp only [Except.ok.injEq] at h
    subst h
    exact Or.inl hkv
  · rw [herr] at h
    exact absurd h (by simp)
  · rw [hok] at h
    simp only [Except.ok.injEq] at h
    subst h
    rcases insertEntry_mem hkv with hold | hnew
    · left
      rw [bumpMinMax_table] at hold
      exact hold
    · right
      simp only [mkHuffmanTableEntry, Option.bind_eq_bind, Option.bind_eq_some] at hm
      obtain ⟨b1, hb1, b2, hb2, bits, hbits, he⟩ := hm
      simp only [Option.pure_def, Option.some.injEq] at he
      subst he
      subst hnew
      refine ⟨?_, ?_, ?_, rfl⟩
      · have l1 := intToBytesBE_length hb1
        have l2 := intToBytesBE_length hb2
        show b1.length = b2.length
        omega
      · exact intToBytesBE_length hb1
      · exact hbits

/-- Witness for `tableEntry_wf` at the spec's example row
`01 0 02 0 1 7 0000000`. -/
theorem tableEntry_wf_witness :
    (([false, false, false, false, false, false, false],
        (⟨[1], [2], 1, 7, "0000000",
          [false, false, false, false, false, false, false]⟩ : HuffmanTableEntry))
        ∈ clearTableState.table) ∨
      (([1] : List Nat).length = ([2] : List Nat).length ∧
        ((([1] : List Nat).length : Int) = (1 : Int)) ∧
        strToBits ("0b" ++ "0000000")
          = some [false, false, false, false, false, false, false] ∧
        ([false, false, false, false, false, false, false] : List Bool)
          = [false, false, false, false, false, false, false]) := by
  have h := tableEntry_wf "01 0 02 0 1 7 0000000" clearTableState
    ⟨[([false, false, false, false, false, false, false],
        ⟨[1], [2], 1, 7, "0000000",
          [false, false, false, false, false, false, false]⟩)], 7, 7⟩ rfl
    ([false, false, false, false, false, false, false],
      ⟨[1], [2], 1, 7, "0000000",
        [false, false, false, false, false, false, false]⟩)
    (List.mem_singleton.mpr rfl)
  exact h

/-! ## The page decoder (`decode_page_from_input_file_i`, lines 326-524)

The input stream is a `List Nat` of bytes; the caller's seek conventions
(`use_relative_seek` from a handle at position 0, or an absolute seek) both
put the cursor at `lut_entry_for_page.offset`, which is where the model
starts reading.  The output stream is collected as a byte list; the
`offset_into_output` seek has no effect on what is written and is
omitted.  The decode table, `longest_huffman_code_in_bits` and
`shortest_huffman_code_in_bits` are the module globals, passed here as
parameters (the loader only ever produces non-negative counters, so they
are `Nat`; the untouched initial `shortest = sys.maxsize` is representable
as a large `Nat`). -/

/-- The decode table: the global `huffman_table` dict as an association
list keyed by the code's bits (keys are unique by construction, so
first-match lookup is dict lookup). -/
abbrev HuffTable := List (List Bool × HuffmanTableEntry)

def tableGet : HuffTable → List Bool → Option HuffmanTableEntry
  | [], _ => none
  | (k, e) :: rest, key => if k = key then some e else tableGet rest key

/-- One byte shifted into the bit register msb-first, as
`bitstring.BitArray(bytes=..., length=8*len)` does. -/
def byteToBits (b : Nat) : List Bool :=
  [b.testBit 7, b.testBit 6, b.testBit 5, b.testBit 4,
   b.testBit 3, b.testBit 2, b.testBit 1, b.testBit 0]

def bytesToBits (l : List Nat) : List Bool :=
  (l.map byteToBits).flatten

/-- `inp.read(k)` on a `BufferedReader` whose underlying file is `file`
with cursor at `pos`: a non-negative `k` returns up to `k` bytes, `-1`
reads to EOF, and any other negative count raises `ValueError` (`none`). -/
def fileRead (file : List Nat) (pos : Nat) (k : Int) : Option (List Nat) :=
  if 0 ≤ k then some ((file.drop pos).take k.toNat)
  else if k = -1 then some (file.drop pos)
  else none

/-- The local state of the decoding loops: the bit register and its count
of valid bits, the relative read tracker `read_position`, the absolute
input cursor, `write_position`, the bytes written, and the bytes read by
the previous refill but not yet shifted in (`in_data`). -/
structure DecState where
  bitbuffer : List Bool
  validBits : Nat
  readPos : Nat
  pos : Nat
  writePos : Nat
  output : List Nat
  inData : List Nat
deriving DecidableEq, Repr

/-- How `decode_page_from_input_file_i` leaves its main loop: the
`return -1` on a lookup miss (line 453), the `return write_position` when
the output cap is reached (line 461), or normally with the page's input
exhausted (falling through to line 483). -/
inductive MainExit where
  | noMatch (st : DecState)
  | cap (st : DecState)
  | pageDone (st : DecState)
deriving DecidableEq, Repr

/-- The matching loop
`for nbits_of_hcode in range(longest_code_possible, shortest - 1, -1)`
(lines 444-448): try prefixes of the register from `k` bits down, `n`
candidates in all; the first hit wins. -/
def matchGo (tbl : HuffTable) (buf : List Bool) : Nat → Nat → Option (Nat × HuffmanTableEntry)
  | 0, _ => none
  | n + 1, k =>
    match tableGet tbl (buf.take k) with
    | some e => some (k, e)
    | none => matchGo tbl buf n (k - 1)

/-- `range(L, s - 1, -1)` tries `L, L-1, ..., s` (down to `0` when
`s = 0`, since the stop value `s - 1` is computed in ℤ), i.e. `L + 1 - s`
candidates. -/
def matchCode (tbl : HuffTable) (buf : List Bool) (L s : Nat) :
    Option (Nat × HuffmanTableEntry) :=
  matchGo tbl buf (L + 1 - s) L

/-- `found.dict2_value if lut_entry_for_page.dictionary_selector == 1 else
found.dict1_value` (lines 456 and 506). -/
def selectDict (sel : Nat) (e : HuffmanTableEntry) : List Nat :=
  if sel = 1 then e.dict2_value else e.dict1_value

/-- One iteration of the main `while read_position < end_page_position`
loop body (lines 422-481).  `.inl` is an early `return`, `.inr` the state
at the next iteration; `none` models the `ValueError` of a negative-count
read (unreachable while the loop guard holds, but kept for fidelity). -/
def mainStep (tbl : HuffTable) (longest shortest : Nat) (file : List Nat)
    (sel : Nat) (endPage : Int) (st : DecState) : Option (MainExit ⊕ DecState) :=
  let newBits := 8 * st.inData.length
  let buf1 := st.bitbuffer.drop (st.bitbuffer.length - st.validBits)
  let buf2 := if st.inData.length > 0 then buf1 ++ bytesToBits st.inData else buf1
  let valid := st.validBits + newBits
  let lcp := min longest valid
  match matchCode tbl buf2 lcp shortest with
  | none =>
    some (.inl (.noMatch { st with bitbuffer := buf2, validBits := valid, inData := [] }))
  | some (nbits, found) =>
    let dcode := selectDict sel found
    let wp := st.writePos + dcode.length
    let outp := st.output ++ dcode
    if wp ≥ 4096 then
      some (.inl (.cap { st with bitbuffer := buf2, validBits := valid, inData := [], writePos := wp, output := outp }))
    else
      let valid2 := valid - nbits
      if valid2 < longest then
        let topoff := longest * 10
        let btr : Nat := topoff / 8 + (if topoff % 8 > 0 then 1 else 0)
        let btr2 : Int := min (btr : Int) (endPage - (st.readPos : Int))
        match fileRead file st.pos btr2 with
        | none => none
        | some d =>
          some (.inr { bitbuffer := buf2, validBits := valid2, readPos := st.readPos + d.length, pos := st.pos + d.length, writePos := wp, output := outp, inData := d })
      else
        some (.inr { st with bitbuffer := buf2, validBits := valid2, writePos := wp, output := outp, inData := [] })

/-- The main loop, one fuel unit per iteration. -/
def mainLoop (tbl : HuffTable) (longest shortest : Nat) (file : List Nat)
    (sel : Nat) (endPage : Int) : Nat → DecState → Option MainExit
  | 0, _ => none
  | fuel + 1, st =>
    if (st.readPos : Int) < endPage then
      match mainStep tbl longest shortest file sel endPage st with
      | none => none
      | some (.inl e) => some e
      | some (.inr st') => mainLoop tbl longest shortest file sel endPage fuel st'
    else some (.pageDone st)

/-- One iteration of the tail `while len(bitbuffer) >= shortest...` loop
body (lines 493-519): `.inl` is the early cap `return`, `.inr` the state
at the next iteration (a miss clears the register, line 517). -/
def tailStep (tbl : HuffTable) (longest shortest : Nat) (sel : Nat)
    (st : DecState) : DecState ⊕ DecState :=
  let buf := st.bitbuffer.drop (st.bitbuffer.length - st.validBits)
  let lcp := min longest st.validBits
  match matchCode tbl buf lcp shortest with
  | some (nbits, found) =>
    let dcode := selectDict sel found
    let wp := st.writePos + dcode.length
    let outp := st.output ++ dcode
    if wp ≥ 4096 then .inl { st with bitbuffer := buf, writePos := wp, output := outp }
    else .inr { st with bitbuffer := buf, validBits := st.validBits - nbits, writePos := wp, output := outp }
  | none => .inr { st with bitbuffer := [], validBits := 0 }

/-- The tail loop; returns the state at `return write_position`. -/
def tailLoop (tbl : HuffTable) (longest shortest : Nat) (sel : Nat) :
    Nat → DecState → Option DecState
  | 0, _ => none
  | fuel + 1, st =>
    if st.bitbuffer.length ≥ shortest then
      match tailStep tbl longest shortest sel st with
      | .inl stExit => some stExit
      | .inr st' => tailLoop tbl longest shortest sel fuel st'
    else some st

/-- Lines 358-364: a `size == 0` sentinel entry is mutated in place to
`size = HUFFMAN_PAGE_DECODED_SIZE_MAX` before anything else happens. -/
def effectiveEntry (lut : LUTentry) : LUTentry :=
  if lut.size = 0 then { lut with size := 4096 } else lut

/-- `end_page_position = lut_entry_for_page.offset + lut_entry_for_page.size`
(line 372). -/
def endPageOf (e : LUTentry) : Int := (e.offset : Int) + e.size

/-- `bytes_for_longest_code` (lines 376-377). -/
def bytesForLongestCode (longest : Nat) : Nat :=
  longest / 8 + (if longest % 8 > 0 then 1 else 0)

/-- The initial prefetch (lines 379-385): read
`min(bytes_for_longest_code, end_page_position - read_position)` bytes
starting at the page offset, with `read_position = 0`. -/
def initState (longest : Nat) (file : List Nat) (e : LUTentry) : Option DecState :=
  let k0 : Int := min ((bytesForLongestCode longest : Nat) : Int) (endPageOf e)
  match fileRead file e.offset k0 with
  | none => none
  | some d0 =>
    some { bitbuffer := [], validBits := 0, readPos := d0.length,
           pos := e.offset + d0.length, writePos := 0, output := [], inData := d0 }

/-- The pruning between the loops (line 488). -/
def pruneState (st : DecState) : DecState :=
  { st with bitbuffer := st.bitbuffer.drop (st.bitbuffer.length - st.validBits) }

/-- What a `decode_page_from_input_file_i` call produces: the returned
int, the bytes written to the output stream, the number of bytes read
from the input stream (the final `read_position`), and the final value of
the (mutated) LUT entry object. -/
structure DecodeResult where
  result : Int
  output : List Nat
  bytesRead : Nat
  entry : LUTentry
deriving DecidableEq, Repr

/-- `decode_page_from_input_file_i(inp, lut_entry_for_page, outp, ...)`. -/
def decodePageFromInputFile (tbl : HuffTable) (longest shortest : Nat)
    (file : List Nat) (lut : LUTentry) (fuel : Nat) : Option DecodeResult :=
  let e := effectiveEntry lut
  match initState longest file e with
  | none => none
  | some st0 =>
    match mainLoop tbl longest shortest file e.dictionary_selector (endPageOf e) fuel st0 with
    | none => none
    | some (.noMatch st) => some ⟨-1, st.output, st.readPos, e⟩
    | some (.cap st) => some ⟨(st.writePos : Int), st.output, st.readPos, e⟩
    | some (.pageDone st) =>
      match tailLoop tbl longest shortest e.dictionary_selector fuel (pruneState st) with
      | none => none
      | some st2 => some ⟨(st2.writePos : Int), st2.output, st2.readPos, e⟩

/-! ## Decoder lemmas -/

theorem tableGet_mem : ∀ {tbl : HuffTable} {key : List Bool} {e : HuffmanTableEntry},
    tableGet tbl key = some e → (key, e) ∈ tbl := by
  intro tbl
  induction tbl with
  | nil => intro key e h; exact absurd h (by simp [tableGet])
  | cons kv rest ih =>
    intro key e h
    obtain ⟨k, v⟩ := kv
    unfold tableGet at h
    split at h
    · simp only [Option.some.injEq] at h
      subst h
      rename_i hk
      subst hk
      exact List.mem_cons_self _ _
    · exact List.mem_cons_of_mem _ (ih h)

theorem matchGo_mem : ∀ {tbl : HuffTable} {buf : List Bool} {n k nbits : Nat}
    {e : HuffmanTableEntry}, matchGo tbl buf n k = some (nbits, e) →
    ∃ key, (key, e) ∈ tbl := by
  intro tbl buf n
  induction n with
  | zero => intro k nbits e h; exact absurd h (by simp [matchGo])
  | succ n ih =>
    intro k nbits e h
    unfold matchGo at h
    split at h
    · rename_i e' he'
      simp only [Option.some.injEq, Prod.mk.injEq] at h
      obtain ⟨h1, h2⟩ := h
      subst h2
      exact ⟨buf.take k, tableGet_mem he'⟩
    · exact ih h

theorem matchCode_mem {tbl : HuffTable} {buf : List Bool} {L s nbits : Nat}
    {e : HuffmanTableEntry} (h : matchCode tbl buf L s = some (nbits, e)) :
    ∃ key, (key, e) ∈ tbl :=
  matchGo_mem h

theorem initState_writePos {longest : Nat} {file : List Nat} {e : LUTentry}
    {st0 : DecState} (h : initState longest file e = some st0) :
    st0.writePos = 0 := by
  unfold initState at h
  dsimp only [] at h
  split at h
  · exact absurd h (by simp)
  · simp only [Option.some.injEq] at h
    subst h
    rfl

theorem decode_entry_eq {tbl : HuffTable} {longest shortest : Nat} {file : List Nat}
    {lut : LUTentry} {fuel : Nat} {r : DecodeResult}
    (h : decodePageFromInputFile tbl longest shortest file lut fuel = some r) :
    r.entry = effectiveEntry lut := by
  unfold decodePageFromInputFile at h
  dsimp only [] at h
  split at h
  · exact absurd h (by simp)
  · split at h
    · exact absurd h (by simp)
    · simp only [Option.some.injEq] at h
      subst h
      rfl
    · simp only [Option.some.injEq] at h
      subst h
      rfl
    · split at h
      · exact absurd h (by simp)
      · simp only [Option.some.injEq] at h
        subst h
        rfl

/-- C9: the page decoder replaces a `size == 0` sentinel on the passed LUT
entry with `size = 4096` before decoding, and this mutation is visible
after the call; an entry with nonzero size is returned with `offset`,
`size` and `dictionary_selector` untouched. -/
theorem decode_entry_mutation (tbl : HuffTable) (longest shortest : Nat)
    (file : List Nat) (lut : LUTentry) (fuel : Nat) (r : DecodeResult)
    (h : decodePageFromInputFile tbl longest shortest file lut fuel = some r) :
    (lut.size = 0 → r.entry = { lut with size := 4096 }) ∧
      (lut.size ≠ 0 → r.entry = lut) := by
  have he := decode_entry_eq h
  constructor <;> intro hsz <;> rw [he] <;> simp [effectiveEntry, hsz]

/-- Witness for `decode_entry_mutation` at a sentinel entry. -/
theorem decode_entry_mutation_witness :
    (((⟨0, 0, 0⟩ : LUTentry).size = 0 →
        (⟨-1, [170, 170, 170], 3, ⟨0, 0, 4096⟩⟩ : DecodeResult).entry
          = { (⟨0, 0, 0⟩ : LUTentry) with size := 4096 }) ∧
      ((⟨0, 0, 0⟩ : LUTentry).size ≠ 0 →
        (⟨-1, [170, 170, 170], 3, ⟨0, 0, 4096⟩⟩ : DecodeResult).entry
          = (⟨0, 0, 0⟩ : LUTentry))) :=
  decode_entry_mutation
    [(List.replicate 8 false,
      ⟨[170], [187], 1, 8, "00000000", List.replicate 8 false⟩)]
    8 8 [0, 0, 0] ⟨0, 0, 0⟩ 10 ⟨-1, [170, 170, 170], 3, ⟨0, 0, 4096⟩⟩ rfl

/-- Bound on the dictionary byte arrays of every table entry. -/
def dictLenBounded (tbl : HuffTable) (D : Nat) : Prop :=
  ∀ kv ∈ tbl, kv.2.dict1_value.length ≤ D ∧ kv.2.dict2_value.length ≤ D

/-- Classification of main-loop exits by write position. -/
def mainExitBound (D : Nat) : MainExit → Prop
  | .noMatch _ => True
  | .cap st => st.writePos ≤ 4095 + D
  | .pageDone st => st.writePos < 4096

theorem selectDict_len_le {tbl : HuffTable} {D : Nat} {key : List Bool}
    {e : HuffmanTableEntry} (hD : dictLenBounded tbl D) (hmem : (key, e) ∈ tbl)
    (sel : Nat) : (selectDict sel e).length ≤ D := by
  have hb : e.dict1_value.length ≤ D ∧ e.dict2_value.length ≤ D := hD _ hmem
  unfold selectDict
  split
  · exact hb.2
  · exact hb.1

theorem mainStep_writePos {tbl : HuffTable} {longest shortest : Nat}
    {file : List Nat} {sel : Nat} {endPage : Int} {st : DecState} {D : Nat}
    (hD : dictLenBounded tbl D) (hwp : st.writePos < 4096) :
    ∀ x, mainStep tbl longest shortest file sel endPage st = some x →
      (∀ e, x = .inl e → mainExitBound D e) ∧ (∀ st', x = .inr st' → st'.writePos < 4096) := by
  intro x hx
  unfold mainStep at hx
  dsimp only [] at hx
  split at hx
  · simp only [Option.some.injEq] at hx
    subst hx
    exact ⟨fun e he => by cases he; trivial, fun st' hst' => by cases hst'⟩
  · rename_i nbits found hmatch
    have hlen : (selectDict sel found).length ≤ D := by
      obtain ⟨key, hmem⟩ := matchCode_mem hmatch
      exact selectDict_len_le hD hmem sel
    split at hx
    · rename_i hcap
      simp only [Option.some.injEq] at hx
      subst hx
      refine ⟨fun e he => ?_, fun st' hst' => by cases hst'⟩
      cases he
      simp only [mainExitBound]
      omega
    · rename_i hnocap
      split at hx
      · split at hx
        · exact absurd hx (by simp)
        · simp only [Option.some.injEq] at hx
          subst hx
          refine ⟨fun e he => (nomatch he), fun st' hst' => ?_⟩
          cases hst'
          simp only []
          omega
      · simp only [Option.some.injEq] at hx
        subst hx
        refine ⟨fun e he => (nomatch he), fun st' hst' => ?_⟩
        cases hst'
        simp only []
        omega

theorem mainLoop_writePos {tbl : HuffTable} {longest shortest : Nat}
    {file : List Nat} {sel : Nat} {endPage : Int} {D : Nat}
    (hD : dictLenBounded tbl D) :
    ∀ (fuel : Nat) (st : DecState) (r : MainExit),
      mainLoop tbl longest shortest file sel endPage fuel st = some r →
      st.writePos < 4096 → mainExitBound D r := by
  intro fuel
  induction fuel with
  | zero => intro st r h hwp; exact absurd h (by simp [mainLoop])
  | succ fuel ih =>
    intro st r h hwp
    unfold mainLoop at h
    split at h
    · split at h
      · exact absurd h (by simp)
      · rename_i e hx
        simp only [Option.some.injEq] at h
        subst h
        exact ((mainStep_writePos hD hwp _ hx).1 _ rfl)
      · rename_i st' hx
        exact ih _ _ h ((mainStep_writePos hD hwp _ hx).2 st' rfl)
    · simp only [Option.some.injEq] at h
      subst h
      exact hwp

theorem tailStep_writePos {tbl : HuffTable} {longest shortest : Nat} {sel : Nat}
    {st : DecState} {D : Nat} (hD : dictLenBounded tbl D) (hwp : st.writePos < 4096) :
    (∀ st', tailStep tbl longest shortest sel st = .inl st' → st'.writePos ≤ 4095 + D) ∧
      (∀ st', tailStep tbl longest shortest sel st = .inr st' → st'.writePos < 4096) := by
  unfold tailStep
  dsimp only []
  split
  · rename_i nbits found hmatch
    have hlen : (selectDict sel found).length ≤ D := by
      obtain ⟨key, hmem⟩ := matchCode_mem hmatch
      exact selectDict_len_le hD hmem sel
    split
    · rename_i hcap
      refine ⟨fun st' hst' => ?_, fun st' hst' => (nomatch hst')⟩
      cases hst'
      simp only []
      omega
    · rename_i hnocap
      refine ⟨fun st' hst' => (nomatch hst'), fun st' hst' => ?_⟩
      cases hst'
      simp only []
      omega
  · refine ⟨fun st' hst' => (nomatch hst'), fun st' hst' => ?_⟩
    cases hst'
    simpa using hwp

theorem tailLoop_writePos {tbl : HuffTable} {longest shortest : Nat} {sel : Nat}
    {D : Nat} (hD : dictLenBounded tbl D) :
    ∀ (fuel : Nat) (st st2 : DecState),
      tailLoop tbl longest shortest sel fuel st = some st2 →
      st.writePos < 4096 → st2.writePos ≤ 4095 + D := by
  intro fuel
  induction fuel with
  | zero => intro st st2 h hwp; exact absurd h (by simp [tailLoop])
  | succ fuel ih =>
    intro st st2 h hwp
    unfold tailLoop at h
    split at h
    · split at h
      · rename_i stExit hx
        simp only [Option.some.injEq] at h
        subst h
        exact (tailStep_writePos hD hwp).1 _ hx
      · rename_i st' hx
        exact ih _ _ h ((tailStep_writePos hD hwp).2 st' hx)
    · simp only [Option.some.injEq] at h
      subst h
      omega

/-- C1 (amended): a successful (non-negative) return of the page decoder
is at most `4095 + D`, where `D` bounds the dictionary byte lengths of the
codebook entries: the `write_position >= 4096` cap is checked only *after*
a whole dictionary word has been written, so the final write may overshoot
4096 by up to `D - 1` bytes. -/
theorem decode_output_bound (tbl : HuffTable) (longest shortest : Nat)
    (file : List Nat) (lut : LUTentry) (fuel : Nat) (D : Nat) (r : DecodeResult)
    (hD : dictLenBounded tbl D)
    (h : decodePageFromInputFile tbl longest shortest file lut fuel = some r)
    (hpos : 0 ≤ r.result) :
    r.result ≤ 4095 + (D : Int) := by
  unfold decodePageFromInputFile at h
  dsimp only [] at h
  split at h
  · exact absurd h (by simp)
  · rename_i st0 hinit
    split at h
    · exact absurd h (by simp)
    · rename_i st hml
      simp only [Option.some.injEq] at h
      subst h
      simp at hpos
    · rename_i st hml
      simp only [Option.some.injEq] at h
      subst h
      have h0 := initState_writePos hinit
      have hb := mainLoop_writePos hD fuel st0 _ hml (by omega)
      simp only [mainExitBound] at hb
      show ((st.writePos : Nat) : Int) ≤ 4095 + (D : Int)
      omega
    · rename_i st hml
      split at h
      · exact absurd h (by simp)
      · rename_i st2 htl
        simp only [Option.some.injEq] at h
        subst h
        have h0 := initState_writePos hinit
        have hb := mainLoop_writePos hD fuel st0 _ hml (by omega)
        simp only [mainExitBound] at hb
        have hb2 := tailLoop_writePos hD fuel (pruneState st) st2 htl hb
        show ((st2.writePos : Nat) : Int) ≤ 4095 + (D : Int)
        omega

/-- C1 (counterexample): with a codebook entry whose dictionary word is
100 bytes long, the 41st match pushes `write_position` from 4000 to 4100
before the `>= 4096` cap check fires, so the decoder returns 4100 > 4096
on success. -/
theorem decode_output_bound_counterexample :
    (decodePageFromInputFile
        [(List.replicate 8 false,
          ⟨List.replicate 100 0, List.replicate 100 0, 100, 8, "00000000",
            List.replicate 8 false⟩)]
        8 8 (List.replicate 60 0) ⟨0, 0, 60⟩ 100).map DecodeResult.result = some 4100 ∧
      ¬((4100 : Int) ≤ 4096) :=
  ⟨rfl, by norm_num⟩

/-- Witness for `decode_output_bound` at a concrete one-entry codebook
with one-byte dictionary words. -/
theorem decode_output_bound_witness :
    (⟨1, [170], 2, ⟨0, 0, 2⟩⟩ : DecodeResult).result ≤ 4095 + ((1 : Nat) : Int) :=
  decode_output_bound
    [(List.replicate 8 false,
      ⟨[170], [187], 1, 8, "00000000", List.replicate 8 false⟩)]
    8 8 [0, 0] ⟨0, 0, 2⟩ 10 1 ⟨1, [170], 2, ⟨0, 0, 2⟩⟩
    (by intro kv hkv; simp only [List.mem_singleton] at hkv; subst hkv; exact ⟨by norm_num, by norm_num⟩)
    rfl (by norm_num)

/-- C3: a page-decoder call returns a negative value iff the main loop
(input bytes of the page remaining) missed every candidate code length —
and then the value is the `-1` of line 453; when the main loop instead
runs the page's input out, the tail loop's result is returned, and it is
the non-negative count of bytes written, a tail miss merely ending the
drain (line 517), never producing an error. -/
theorem decode_error_iff (tbl : HuffTable) (longest shortest : Nat)
    (file : List Nat) (lut : LUTentry) (fuel : Nat) (r : DecodeResult)
    (h : decodePageFromInputFile tbl longest shortest file lut fuel = some r) :
    (r.result < 0 ↔ ∃ st0 st',
        initState longest file (effectiveEntry lut) = some st0 ∧
        mainLoop tbl longest shortest file (effectiveEntry lut).dictionary_selector
          (endPageOf (effectiveEntry lut)) fuel st0 = some (.noMatch st')) ∧
      (r.result < 0 → r.result = -1) ∧
      (∀ st0 st', initState longest file (effectiveEntry lut) = some st0 →
        mainLoop tbl longest shortest file (effectiveEntry lut).dictionary_selector
          (endPageOf (effectiveEntry lut)) fuel st0 = some (.pageDone st') →
        ∃ st2, tailLoop tbl longest shortest (effectiveEntry lut).dictionary_selector fuel
            (pruneState st') = some st2 ∧
          r.result = (st2.writePos : Int) ∧ 0 ≤ r.result) := by
  unfold decodePageFromInputFile at h
  dsimp only [] at h
  split at h
  · exact absurd h (by simp)
  · rename_i st0 hinit
    split at h
    · exact absurd h (by simp)
    · rename_i st hml
      simp only [Option.some.injEq] at h
      subst h
      refine ⟨⟨fun _ => ⟨st0, st, hinit, hml⟩, fun _ => by norm_num⟩, fun _ => rfl, ?_⟩
      intro st0' st' h1 h2
      rw [hinit] at h1
      simp only [Option.some.injEq] at h1
      subst h1
      rw [hml] at h2
      exact absurd h2 (by simp)
    · rename_i st hml
      simp only [Option.some.injEq] at h
      subst h
      have hnn : (0 : Int) ≤ (st.writePos : Int) := Int.ofNat_nonneg _
      refine ⟨⟨fun hlt => absurd hlt (not_lt.mpr hnn), ?_⟩,
        fun hlt => absurd hlt (not_lt.mpr hnn), ?_⟩
      · rintro ⟨st0', st', h1, h2⟩
        rw [hinit] at h1
        simp only [Option.some.injEq] at h1
        subst h1
        rw [hml] at h2
        exact absurd h2 (by simp)
      · intro st0' st' h1 h2
        rw [hinit] at h1
        simp only [Option.some.injEq] at h1
        subst h1
        rw [hml] at h2
        exact absurd h2 (by simp)
    · rename_i st hml
      split at h
      · exact absurd h (by simp)
      · rename_i st2 htl
        simp only [Option.some.injEq] at h
        subst h
        have hnn : (0 : Int) ≤ (st2.writePos : Int) := Int.ofNat_nonneg _
        refine ⟨⟨fun hlt => absurd hlt (not_lt.mpr hnn), ?_⟩,
          fun hlt => absurd hlt (not_lt.mpr hnn), ?_⟩
        · rintro ⟨st0', st', h1, h2⟩
          rw [hinit] at h1
          simp only [Option.some.injEq] at h1
          subst h1
          rw [hml] at h2
          exact absurd h2 (by simp)
        · intro st0' st' h1 h2
          rw [hinit] at h1
          simp only [Option.some.injEq] at h1
          subst h1
          rw [hml] at h2
          simp only [Option.some.injEq, MainExit.pageDone.injEq] at h2
          subst h2
          exact ⟨st2, htl, rfl, hnn⟩

/-- Witness for `decode_error_iff` at a concrete erroring run (empty
codebook, sentinel entry). -/
theorem decode_error_iff_witness :
    ((⟨-1, [], 0, ⟨0, 0, 4096⟩⟩ : DecodeResult).result < 0 ↔ ∃ st0 st',
        initState 0 [] (effectiveEntry ⟨0, 0, 0⟩) = some st0 ∧
        mainLoop [] 0 9999 [] (effectiveEntry ⟨0, 0, 0⟩).dictionary_selector
          (endPageOf (effectiveEntry ⟨0, 0, 0⟩)) 1 st0 = some (.noMatch st')) ∧
      ((⟨-1, [], 0, ⟨0, 0, 4096⟩⟩ : DecodeResult).result < 0 →
        (⟨-1, [], 0, ⟨0, 0, 4096⟩⟩ : DecodeResult).result = -1) ∧
      (∀ st0 st', initState 0 [] (effectiveEntry ⟨0, 0, 0⟩) = some st0 →
        mainLoop [] 0 9999 [] (effectiveEntry ⟨0, 0, 0⟩).dictionary_selector
          (endPageOf (effectiveEntry ⟨0, 0, 0⟩)) 1 st0 = some (.pageDone st') →
        ∃ st2, tailLoop [] 0 9999 (effectiveEntry ⟨0, 0, 0⟩).dictionary_selector 1
            (pruneState st') = some st2 ∧
          (⟨-1, [], 0, ⟨0, 0, 4096⟩⟩ : DecodeResult).result = (st2.writePos : Int) ∧
          0 ≤ (⟨-1, [], 0, ⟨0, 0, 4096⟩⟩ : DecodeResult).result) :=
  decode_error_iff [] 0 9999 [] ⟨0, 0, 0⟩ 1 ⟨-1, [], 0, ⟨0, 0, 4096⟩⟩ rfl

/-- C2 (evaluation at the failing input): with `offset = 4`, `page_size = 2`
and 10 input bytes available, the decoder reads 6 = offset + page_size
bytes of the page (returning successfully), even though the page is
declared 2 compressed bytes long — `read_position` starts at 0 (relative to
the page) but `end_page_position = offset + size` mixes in the absolute
offset. -/
theorem decode_reads_past_page_end :
    (decodePageFromInputFile
        [(List.replicate 8 false,
          ⟨[170], [187], 1, 8, "00000000", List.replicate 8 false⟩)]
        8 8 (List.replicate 10 0) ⟨4, 0, 2⟩ 50).map
          (fun r => (r.result, r.bytesRead)) = some (1, 6) ∧
      ¬((6 : Int) ≤ (⟨4, 0, 2⟩ : LUTentry).size) :=
  ⟨rfl, by norm_num⟩

/-! ## `read_lut_of_code_object` (lines 279-323) and the container types it
uses (`fpt_and_cdt_utilities.py`) -/

/-- `class CodePartitionDescriptor`. -/
structure CodePartitionDescriptor where
  offset_of_cdt_header : Nat
  size : Nat
  name : String
deriving DecidableEq, Repr

/-- `class CodeObjectEntry`. -/
structure CodeObjectEntry where
  in_partition : CodePartitionDescriptor
  rel_offset_of_data_in_partition : Nat
  size : Nat
  name : String
  is_huffman_compressed : Bool
deriving DecidableEq, Repr

/-- `read_lut_of_code_object(from_opened_input_file, target_code_object_entry)`
on a file whose cursor is at `pos`.  The result pairs the returned value
with the final cursor position.  For a non-Huffman-compressed entry the
function returns `None` before any seek or read.  Otherwise it seeks to
the code object's data, computes `num_of_huffman_code_pages =
int(size / 4096)` and reads `num_of_huffman_code_pages * 4` LUT bytes
(each loop iteration's `read(4)` advances the cursor by at most 4; in this
branch `none` also stands for a propagated `IndexError` from `read_lut`). -/
def readLutOfCodeObject (file : List Nat) (pos : Nat) (entry : CodeObjectEntry) :
    Option (List LUTentry) × Nat :=
  if ¬ entry.is_huffman_compressed then (none, pos)
  else
    let pos1 := entry.in_partition.offset_of_cdt_header
      + entry.rel_offset_of_data_in_partition
    let n := (entry.size / 4096) * 4
    (readLut (file.drop pos1) n true, pos1 + min n (file.length - pos1))

/-- C10: on a code object entry whose `is_huffman_compressed` flag is
false, `read_lut_of_code_object` returns `None` and performs no seek or
read — the file cursor is unchanged. -/
theorem readLutOfCodeObject_not_huffman (file : List Nat) (pos : Nat)
    (entry : CodeObjectEntry) (h : entry.is_huffman_compressed = false) :
    readLutOfCodeObject file pos entry = (none, pos) := by
  unfold readLutOfCodeObject
  simp [h]

/-- Witness for `readLutOfCodeObject_not_huffman` on a concrete
software-compressed entry. -/
theorem readLutOfCodeObject_not_huffman_witness :
    readLutOfCodeObject [1, 2, 3] 5 ⟨⟨0, 4096, "FTPR"⟩, 0, 4096, "pmcp", false⟩
      = (none, 5) :=
  readLutOfCodeObject_not_huffman [1, 2, 3] 5
    ⟨⟨0, 4096, "FTPR"⟩, 0, 4096, "pmcp", false⟩ rfl
